import Mathlib

/-!
Verification of the autocoder coordination engine against its specification.

Each component the claims touch is shallowly embedded: pure string
manipulation from `autocoder/core/git_dirty.py`, the scheduler registry from
`autocoder/server/services/scheduler.py`, and — for modules whose
implementation is not in the repository snapshot (`autocoder/core/database.py`,
`autocoder/server/services/process_manager.py`, `autocoder/qa_worker.py`) —
models written from the words of the specification, marked `Modelled from the spec:`.

Strings are handled through their character lists so every definition is
kernel-computable.
-/

namespace StrOps

/-- Characters of a string. -/
def chars (s : String) : List Char := s.data

/-- `isPrefixChars p l` : does `l` start with `p`? -/
def isPrefixChars : List Char → List Char → Bool
  | [], _ => true
  | _ :: _, [] => false
  | p :: ps, c :: cs => p == c && isPrefixChars ps cs

/-- `containsChars l pat` models Python `pat in l` (for nonempty `pat`). -/
def containsChars : List Char → List Char → Bool
  | [], pat => isPrefixChars pat []
  | c :: t, pat => isPrefixChars pat (c :: t) || containsChars t pat

/-- Everything after the first (leftmost) occurrence of `pat` in `l`,
    `none` when `pat` does not occur: models Python `l.split(pat, 1)[-1]`
    in the case the separator is present. -/
def afterFirstChars : List Char → List Char → Option (List Char)
  | [], pat => if isPrefixChars pat [] then some [] else none
  | c :: t, pat =>
    if isPrefixChars pat (c :: t) then some ((c :: t).drop pat.length)
    else afterFirstChars t pat

/-- `afterFirstChars` with the whole input as the default. -/
def afterFirstD (l pat : List Char) : List Char := (afterFirstChars l pat).getD l

/-- Python `str.isspace` characters relevant to `str.strip()`. -/
def isSpaceChar (c : Char) : Bool :=
  c == ' ' || c == '\t' || c == '\n' || c == '\r' || c == '\x0b' || c == '\x0c'

/-- Models Python `str.strip()`. -/
def trimChars (l : List Char) : List Char :=
  ((l.dropWhile isSpaceChar).reverse.dropWhile isSpaceChar).reverse

/-- Suffix after the last `/`: models Python `rel.split("/")[-1]`
    (and gives `[]` on `[]`, matching the `if rel else ""` guard). -/
def lastAfterSlash (l : List Char) : List Char :=
  (l.reverse.takeWhile (fun c => !(c == '/'))).reverse

/-- `endsWithChars l pat` : does `l` end with `pat`? -/
def endsWithChars (l pat : List Char) : Bool :=
  isPrefixChars pat.reverse l.reverse

/-- Models Python `s.replace("\\", "/")` (single-character replacement). -/
def replaceBackslash (l : List Char) : List Char :=
  l.map (fun c => if c == '\\' then '/' else c)

end StrOps

namespace GitDirty

open StrOps

/-- `ignore_any_status_substrings` from `git_dirty.split_dirty`. -/
def ignore_any_status_substrings : List String :=
  [".autocoder/", "worktrees/", "agent_system.db", "assistant.db",
   ".progress_cache", ".eslintrc.json"]

/-- `ignore_untracked_substrings` from `git_dirty.split_dirty`. -/
def ignore_untracked_substrings : List String :=
  [".playwright-mcp/"]

/-- `ignore_untracked_filenames` from `git_dirty.split_dirty`. -/
def ignore_untracked_filenames : List String :=
  [".claude_settings.json", "claude-progress.txt"]

/-- `target = ln.replace("\\", "/")` : the whole status line, slash-normalized. -/
def targetOf (ln : String) : List Char := replaceBackslash (chars ln)

/-- `status = ln[:2]`. -/
def statusOf (ln : String) : List Char := (chars ln).take 2

/-- `path_part = ln[3:] if len(ln) > 3 else ""`, then rename resolution
    `path_part.split("->", 1)[-1].strip()` when `"->" in path_part`, then
    `rel = path_part.replace("\\", "/")`. -/
def relOf (ln : String) : List Char :=
  let path_part := if (chars ln).length > 3 then (chars ln).drop 3 else []
  let path_part :=
    if containsChars path_part (chars "->") then
      trimChars (afterFirstD path_part (chars "->"))
    else path_part
  replaceBackslash path_part

/-- The `any(s in target for s in ignore_any_status_substrings)` check. -/
def anyStatusIgnored (ln : String) : Bool :=
  ignore_any_status_substrings.any (fun s => containsChars (targetOf ln) (chars s))

/-- The untracked-entry branch of the loop body of `split_dirty`
    (`if status == "??": ...`); returns `true` when the line is ignored.
    The single glob `*.pid` is a suffix test, as `fnmatch` gives on posix.
    The filesystem check `(project_dir / "prompts" / "app_spec.txt").exists()`
    is the boolean parameter `promptsSpecExists`. -/
def classifyUntracked (promptsSpecExists : Bool) (status rel : List Char) : Bool :=
  let filename := lastAfterSlash rel
  if status == chars "??" then
    if ignore_untracked_substrings.any (fun s => containsChars rel (chars s)) then true
    else if ignore_untracked_filenames.any (fun s => filename == chars s) then true
    else if endsWithChars filename (chars ".pid") then true
    else if filename == chars "app_spec.txt" && promptsSpecExists then true
    else if rel == chars "prompts/" || rel == chars "prompts" then true
    else if isPrefixChars (chars "prompts/") rel &&
        (lastAfterSlash rel == chars "app_spec.txt" ||
          endsWithChars (lastAfterSlash rel) (chars "_prompt.txt")) then true
    else false
  else false

/-- One iteration of the loop body of `split_dirty`: `true` when the line
    goes to `ignored`, `false` when it goes to `remaining`. -/
def classifyLine (promptsSpecExists : Bool) (ln : String) : Bool :=
  if anyStatusIgnored ln then true
  else classifyUntracked promptsSpecExists (statusOf ln) (relOf ln)

/-- `split_dirty(lines, project_dir)` : the `(ignored, remaining)` partition,
    order-preserving as the appends in the loop are. -/
def split_dirty (lines : List String) (promptsSpecExists : Bool) :
    List String × List String :=
  (lines.filter (fun ln => classifyLine promptsSpecExists ln),
   lines.filter (fun ln => !classifyLine promptsSpecExists ln))

/-- `GitDirtyStatus` dataclass. -/
structure GitDirtyStatus where
  ignored : List String
  remaining : List String

/-- The `is_clean` property: `not self.remaining`. -/
def GitDirtyStatus.is_clean (s : GitDirtyStatus) : Bool := s.remaining.isEmpty

/-- `get_git_dirty_status`, with the porcelain lines and the
    `prompts/app_spec.txt` existence passed in place of the two
    filesystem reads. -/
def get_git_dirty_status (lines : List String) (promptsSpecExists : Bool) :
    GitDirtyStatus :=
  { ignored := (split_dirty lines promptsSpecExists).1
    remaining := (split_dirty lines promptsSpecExists).2 }

end GitDirty

namespace GitDirty

/-- C2 counterexample: the tracked status line `" M assistant.db"` contains
none of the three listed substrings (`.autocoder/`, `agent_system.db`,
`worktrees/`) and is not untracked, so per the claim it should land in
`remaining`; `split_dirty` puts it in `ignored` (its ignore list also holds
`assistant.db`, `.progress_cache` and `.eslintrc.json`). -/
theorem C2_counterexample_tracked_assistant_db :
    (split_dirty [" M assistant.db"] false).2 = []
    ∧ (split_dirty [" M assistant.db"] false).1 = [" M assistant.db"]
    ∧ StrOps.containsChars (targetOf " M assistant.db") (StrOps.chars ".autocoder/") = false
    ∧ StrOps.containsChars (targetOf " M assistant.db") (StrOps.chars "agent_system.db") = false
    ∧ StrOps.containsChars (targetOf " M assistant.db") (StrOps.chars "worktrees/") = false
    ∧ statusOf " M assistant.db" ≠ StrOps.chars "??" := by decide

/-- C2 (amended): every status line containing one of the six runtime-artifact
substrings (`.autocoder/`, `worktrees/`, `agent_system.db`, `assistant.db`,
`.progress_cache`, `.eslintrc.json`) is ignored; every tracked (non-`??`)
line containing none of the six goes to `remaining`; an untracked root
`app_spec.txt` is ignored exactly when `prompts/app_spec.txt` exists; and a
worktree is merge-eligible (`is_clean`) iff `remaining` is empty. -/
theorem C2_amended_gatekeeper_classification (p : Bool) (lines : List String)
    (ln : String) (hmem : ln ∈ lines) :
    (∀ s ∈ ignore_any_status_substrings,
        StrOps.containsChars (targetOf ln) (StrOps.chars s) = true →
        ln ∈ (split_dirty lines p).1)
    ∧ (anyStatusIgnored ln = false → statusOf ln ≠ StrOps.chars "??" →
        ln ∈ (split_dirty lines p).2)
    ∧ (classifyLine true "?? app_spec.txt" = true
        ∧ classifyLine false "?? app_spec.txt" = false)
    ∧ (∀ s : GitDirtyStatus, s.is_clean = true ↔ s.remaining = []) := by
  refine ⟨?_, ?_, by decide, ?_⟩
  · intro s hs h
    refine List.mem_filter.mpr ⟨hmem, ?_⟩
    have hany : anyStatusIgnored ln = true := by
      simp only [anyStatusIgnored, List.any_eq_true]
      exact ⟨s, hs, h⟩
    simp [classifyLine, hany]
  · intro h hst
    refine List.mem_filter.mpr ⟨hmem, ?_⟩
    simp [classifyLine, h, classifyUntracked, hst]
  · intro s
    simp [GitDirtyStatus.is_clean, List.isEmpty_iff]

/-- C2 witness: concrete instantiation of the amended classification theorem. -/
theorem C2_amended_witness :
    " M src/app.py" ∈ (split_dirty [" M src/app.py"] false).2 :=
  (C2_amended_gatekeeper_classification false [" M src/app.py"] " M src/app.py"
      (by decide)).2.1 (by decide) (by decide)

/-- C3 counterexample: two rename lines with the same status code and the same
new path are classified differently because the any-status substring ignore
matches the whole line, old path included: `R  worktrees/a.txt -> src/main.py`
is ignored while `R  x.txt -> src/main.py` is remaining. -/
theorem C3_counterexample_rename_old_path_matters :
    statusOf "R  worktrees/a.txt -> src/main.py" = statusOf "R  x.txt -> src/main.py"
    ∧ relOf "R  worktrees/a.txt -> src/main.py" = relOf "R  x.txt -> src/main.py"
    ∧ classifyLine false "R  worktrees/a.txt -> src/main.py" = true
    ∧ classifyLine false "R  x.txt -> src/main.py" = false
    ∧ (split_dirty ["R  worktrees/a.txt -> src/main.py"] false).1
        = ["R  worktrees/a.txt -> src/main.py"]
    ∧ (split_dirty ["R  x.txt -> src/main.py"] false).2
        = ["R  x.txt -> src/main.py"] := by decide

/-- C3 (amended): rename entries are resolved to their new path before the
untracked-pattern matching, and for lines the whole-line substring ignore does
not catch, the classification depends only on the status code and the resolved
new path; the whole-line substring check, however, sees the old path too. -/
theorem C3_amended_rename_resolution (p : Bool) (ln₁ ln₂ : String)
    (h₁ : anyStatusIgnored ln₁ = false) (h₂ : anyStatusIgnored ln₂ = false)
    (hs : statusOf ln₁ = statusOf ln₂) (hr : relOf ln₁ = relOf ln₂) :
    classifyLine p ln₁ = classifyLine p ln₂
    ∧ relOf "R  old.txt -> new.txt" = StrOps.chars "new.txt" := by
  constructor
  · simp [classifyLine, h₁, h₂, hs, hr]
  · decide

/-- C3 witness: concrete instantiation of the amended rename-resolution theorem. -/
theorem C3_amended_witness :
    classifyLine false "R  a.txt -> same.txt" = classifyLine false "R  b.txt -> same.txt"
    ∧ relOf "R  old.txt -> new.txt" = StrOps.chars "new.txt" :=
  C3_amended_rename_resolution false "R  a.txt -> same.txt" "R  b.txt -> same.txt"
    (by decide) (by decide) (by decide) (by decide)

end GitDirty

namespace Scheduler

/-- State of the scheduler registry of `scheduler.py`: the `_scheduled` dict is
an association list project-name → timer-task id; `cancelled` and `finished`
record which timer tasks have had `task.cancel()` called resp. have run their
`_runner` to completion (`task.done()` is membership in either); `nextId`
supplies a fresh id for each `asyncio.create_task`. -/
structure SchedulerState where
  scheduled : List (String × Nat)
  cancelled : List Nat
  finished : List Nat
  nextId : Nat

/-- Dict deletion: drop every entry with the given key (`_scheduled.pop(name)`). -/
def eraseKey (m : List (String × Nat)) (k : String) : List (String × Nat) :=
  m.filter (fun e => !(e.1 == k))

/-- Dict lookup (`_scheduled.get(name)`). -/
def lookupKey (m : List (String × Nat)) (k : String) : Option Nat :=
  (m.find? (fun e => e.1 == k)).map (fun e => e.2)

/-- `cancel_schedule(project_name)`: pop the entry; when a run was present and
its timer task is not done, cancel the task; returns whether a run was found.
(The `_persist_all()` write-through does not affect the in-memory registry.) -/
def cancel_schedule (s : SchedulerState) (project : String) : Bool × SchedulerState :=
  match lookupKey s.scheduled project with
  | none => (false, s)
  | some rid =>
    let s' := { s with scheduled := eraseKey s.scheduled project }
    if s'.finished.contains rid || s'.cancelled.contains rid then (true, s')
    else (true, { s' with cancelled := rid :: s'.cancelled })

/-- `schedule_run(manager, run_at, request)`: first `cancel_schedule(project_name)`,
then create the timer task and install the new `ScheduledRun` as the dict entry
for the project; returns the new state and the new timer-task id. The timer
delay, the `manager.start` call inside `_runner`, and persistence are outside
the registry invariant modelled here. -/
def schedule_run (s : SchedulerState) (project : String) : SchedulerState × Nat :=
  let s' := (cancel_schedule s project).2
  let rid := s'.nextId
  ({ s' with scheduled := (project, rid) :: eraseKey s'.scheduled project,
             nextId := s'.nextId + 1 }, rid)

/-- The `finally` block of `_runner`: on completion the task pops its project
from `_scheduled` and is thereafter done. -/
def runner_finish (s : SchedulerState) (project : String) (rid : Nat) : SchedulerState :=
  { s with scheduled := eraseKey s.scheduled project, finished := rid :: s.finished }

/-- The operations that touch the `_scheduled` registry. -/
inductive SchedOp where
  | schedule (project : String)
  | cancel (project : String)
  | finish (project : String) (rid : Nat)

/-- Apply one registry operation. -/
def applyOp (s : SchedulerState) : SchedOp → SchedulerState
  | .schedule p => (schedule_run s p).1
  | .cancel p => (cancel_schedule s p).2
  | .finish p r => runner_finish s p r

/-- Daemon start: empty registry. -/
def initState : SchedulerState := ⟨[], [], [], 0⟩

/-- Run a sequence of registry operations from daemon start. -/
def runOps (ops : List SchedOp) : SchedulerState := ops.foldl applyOp initState

theorem keys_eraseKey_sublist (m : List (String × Nat)) (k : String) :
    ((eraseKey m k).map Prod.fst).Sublist (m.map Prod.fst) :=
  (List.filter_sublist m).map Prod.fst

theorem not_mem_keys_eraseKey (m : List (String × Nat)) (k : String) :
    k ∉ (eraseKey m k).map Prod.fst := by
  intro h
  rcases List.mem_map.mp h with ⟨e, he, hk⟩
  rcases List.mem_filter.mp he with ⟨_, hcond⟩
  simp only [Bool.not_eq_true', beq_eq_false_iff_ne] at hcond
  exact hcond hk

theorem scheduled_cancel_eq (s : SchedulerState) (p : String) :
    (cancel_schedule s p).2.scheduled = eraseKey s.scheduled p := by
  unfold cancel_schedule
  cases hfind : lookupKey s.scheduled p with
  | none =>
    simp only
    unfold lookupKey at hfind
    rcases Option.map_eq_none'.mp hfind with hnone
    have hall := List.find?_eq_none.mp hnone
    unfold eraseKey
    refine (List.filter_eq_self.mpr ?_).symm
    intro e he
    simpa using hall e he
  | some rid =>
    simp only
    split <;> rfl

theorem keys_nodup_applyOp (s : SchedulerState) (op : SchedOp)
    (h : (s.scheduled.map Prod.fst).Nodup) :
    ((applyOp s op).scheduled.map Prod.fst).Nodup := by
  cases op with
  | schedule p =>
    have hkeys : ((applyOp s (.schedule p)).scheduled.map Prod.fst)
        = p :: ((eraseKey (cancel_schedule s p).2.scheduled p).map Prod.fst) := by
      simp [applyOp, schedule_run]
    rw [hkeys]
    refine List.nodup_cons.mpr ⟨not_mem_keys_eraseKey _ p, ?_⟩
    refine h.sublist (List.Sublist.trans (keys_eraseKey_sublist _ p) ?_)
    rw [scheduled_cancel_eq]
    exact keys_eraseKey_sublist _ p
  | cancel p =>
    rw [show applyOp s (.cancel p) = (cancel_schedule s p).2 from rfl,
      scheduled_cancel_eq]
    exact h.sublist (keys_eraseKey_sublist _ p)
  | finish p r =>
    exact h.sublist (keys_eraseKey_sublist _ p)

end Scheduler

namespace Scheduler

theorem keys_nodup_foldl (ops : List SchedOp) (s : SchedulerState)
    (h : (s.scheduled.map Prod.fst).Nodup) :
    (((ops.foldl applyOp s).scheduled).map Prod.fst).Nodup := by
  induction ops generalizing s with
  | nil => exact h
  | cons op t ih => exact ih _ (keys_nodup_applyOp s op h)

theorem filter_key_length_le_one (m : List (String × Nat)) (q : String)
    (h : (m.map Prod.fst).Nodup) :
    (m.filter (fun e => e.1 == q)).length ≤ 1 := by
  induction m with
  | nil => simp
  | cons e t ih =>
    simp only [List.map_cons, List.nodup_cons] at h
    by_cases he : e.1 = q
    · have ht : t.filter (fun e' => e'.1 == q) = [] := by
        refine List.filter_eq_nil.mpr ?_
        intro a ha
        simp only [beq_iff_eq]
        intro hq
        exact h.1 (by rw [he, ← hq]; exact List.mem_map_of_mem Prod.fst ha)
      simp [List.filter_cons, he, ht]
    · simp only [List.filter_cons]
      simp only [beq_iff_eq, he, if_false]
      exact ih h.2

theorem filter_eraseKey_self (m : List (String × Nat)) (p : String) :
    (eraseKey m p).filter (fun e => e.1 == p) = [] := by
  refine List.filter_eq_nil.mpr ?_
  intro a ha
  rcases List.mem_filter.mp ha with ⟨_, hcond⟩
  simpa using hcond

end Scheduler

namespace Scheduler

/-- C10: the scheduler keeps at most one active schedule per project. For any
sequence of `schedule_run` / `cancel_schedule` / timer-completion operations
from daemon start, the project keys of the registry stay duplicate-free, so each
project has at most one registered schedule; moreover `schedule_run` leaves
the new run as the sole entry for its project, and any previously registered
timer task for that project has been cancelled (or was already done). -/
theorem C10_scheduler_at_most_one_schedule_per_project
    (ops : List SchedOp) (s : SchedulerState) (p q : String) :
    ((runOps ops).scheduled.map Prod.fst).Nodup
    ∧ ((runOps ops).scheduled.filter (fun e => e.1 == q)).length ≤ 1
    ∧ (schedule_run s p).1.scheduled.filter (fun e => e.1 == p)
        = [(p, (schedule_run s p).2)]
    ∧ (∀ rid, lookupKey s.scheduled p = some rid →
        (schedule_run s p).1.cancelled.contains rid = true
        ∨ s.finished.contains rid = true ∨ s.cancelled.contains rid = true) := by
  have hnod : ((runOps ops).scheduled.map Prod.fst).Nodup :=
    keys_nodup_foldl ops initState (by simp [initState])
  refine ⟨hnod, filter_key_length_le_one _ q hnod, ?_, ?_⟩
  · show ((p, (cancel_schedule s p).2.nextId) ::
        eraseKey (cancel_schedule s p).2.scheduled p).filter (fun e => e.1 == p)
        = [(p, (schedule_run s p).2)]
    rw [List.filter_cons]
    simp only [beq_self_eq_true, if_pos, filter_eraseKey_self]
    rfl
  · intro rid hfind
    unfold schedule_run cancel_schedule
    rw [hfind]
    simp only
    by_cases hfin : s.finished.contains rid = true
    · exact Or.inr (Or.inl hfin)
    · by_cases hcan : s.cancelled.contains rid = true
      · exact Or.inr (Or.inr hcan)
      · left
        simp only [hfin, hcan, Bool.or_self, Bool.false_or, if_neg, Bool.or_false]
        simp [List.contains_cons]

/-- C10 witness: concrete instantiation — scheduling over an empty registry
leaves exactly one entry for the project. -/
theorem C10_witness :
    (schedule_run initState "a").1.scheduled.filter (fun e => e.1 == "a")
      = [("a", (schedule_run initState "a").2)] :=
  (C10_scheduler_at_most_one_schedule_per_project [] initState "a" "a").2.2.1

end Scheduler

namespace TaskStore

/-- Modelled from the spec: `autocoder/core/database.py` is not in the
repository snapshot (only its tests are). Feature status state machine of
section 3 of the spec. -/
inductive Status where
  | PENDING
  | IN_PROGRESS
  | PASSING
  | BLOCKED
deriving DecidableEq, Repr

/-- Modelled from the spec: the Feature row of section 3 — integer identity,
name, description, category (with reserved category REGRESSION), priority,
status, assigned agent, dependency edges, attempts, last error, last artifact
path, regression back-reference, branch-preservation flag. -/
structure Feature where
  id : Nat
  name : String
  description : String
  category : String
  priority : Int
  status : Status
  assigned_agent_id : Option String
  depends_on : List Nat
  attempts : Nat
  last_error : Option String
  last_artifact_path : Option String
  regression_of_id : Option Nat
  preserve_branch : Bool
deriving DecidableEq, Repr

/-- Modelled from the spec: the persisted task store — rows in creation
order plus the next fresh id. -/
structure Database where
  features : List Feature
  nextId : Nat
deriving DecidableEq, Repr

/-- Row lookup by id (`get_feature`). -/
def get_feature (db : Database) (fid : Nat) : Option Feature :=
  db.features.find? (fun f => f.id == fid)

/-- Update the row with the given id in place. -/
def setFeature (db : Database) (fid : Nat) (upd : Feature → Feature) : Database :=
  { db with features := db.features.map (fun f => if f.id == fid then upd f else f) }

/-- Well-formedness: distinct ids, all below the fresh-id counter. -/
def Database.WF (db : Database) : Prop :=
  (db.features.map Feature.id).Nodup ∧ ∀ f ∈ db.features, f.id < db.nextId

/-- Modelled from the spec: `create_feature(name, description, category,
priority=0, depends_on=[])` creates a new PENDING feature and returns its id. -/
def create_feature (db : Database) (name description category : String)
    (priority : Int) (depends_on : List Nat) : Nat × Database :=
  (db.nextId,
   { features := db.features ++
      [{ id := db.nextId, name := name, description := description,
         category := category, priority := priority, status := .PENDING,
         assigned_agent_id := none, depends_on := depends_on, attempts := 0,
         last_error := none, last_artifact_path := none,
         regression_of_id := none, preserve_branch := false }],
     nextId := db.nextId + 1 })

/-- Modelled from the spec: a dependency is satisfied when the referenced
feature exists and is PASSING (a dangling dependency cannot be PASSING). -/
def depsPassing (db : Database) (f : Feature) : Bool :=
  f.depends_on.all (fun d =>
    match get_feature db d with
    | some g => g.status == .PASSING
    | none => false)

/-- Eligibility for claiming: PENDING with all dependencies PASSING. -/
def eligible (db : Database) (f : Feature) : Bool :=
  f.status == .PENDING && depsPassing db f

/-- Ids of currently eligible features, in creation order. -/
def eligibleIds (db : Database) : List Nat :=
  (db.features.filter (fun f => eligible db f)).map Feature.id

/-- Highest-priority-first selection with creation order breaking ties:
the fold keeps the earlier row unless a strictly higher priority appears. -/
def pickBest : Option Feature → List Feature → Option Feature
  | best, [] => best
  | none, f :: t => pickBest (some f) t
  | some b, f :: t => pickBest (some (if f.priority > b.priority then f else b)) t

/-- The claim transition applied to the selected row: IN_PROGRESS with the
claiming agent recorded. -/
def claimUpd (agent_id : String) (g : Feature) : Feature :=
  { g with status := .IN_PROGRESS, assigned_agent_id := some agent_id }

/-- Modelled from the spec: `claim_next_pending_feature(agent_id)` — the
single atomic unit of section 4.1/5: select one PENDING feature whose
dependencies are all PASSING, ordered by priority descending then creation
order, transition it to IN_PROGRESS with `assigned_agent_id = agent_id`, and
return it; `none` when no feature is eligible. -/
def claim_next_pending_feature (db : Database) (agent_id : String) :
    Option Feature × Database :=
  match pickBest none (db.features.filter (fun f => eligible db f)) with
  | none => (none, db)
  | some f =>
    (some (claimUpd agent_id f), setFeature db f.id (claimUpd agent_id))

/-- Modelled from the spec: the concurrent claimers of section 5 — since each
claim is one atomic transaction, any concurrent execution is an interleaving,
i.e. the sequential composition of the atomic claims in some order; the agent
list carries that arbitrary order. Returns the claimed features and the final
store. -/
def claimAll (db : Database) : List String → List Feature × Database
  | [] => ([], db)
  | a :: t =>
    match claim_next_pending_feature db a with
    | (none, db1) => claimAll db1 t
    | (some f, db1) =>
      let r := claimAll db1 t
      (f :: r.1, r.2)

/-- Modelled from the spec: `mark_feature_passing(id)` — transition to
PASSING; true on the first successful transition, false if already PASSING
(idempotent, not an error). The repository test exercises it on a freshly
created (PENDING) feature and expects true, so any non-PASSING status
transitions. -/
def mark_feature_passing (db : Database) (fid : Nat) : Bool × Database :=
  match get_feature db fid with
  | none => (false, db)
  | some f =>
    if f.status = .PASSING then (false, db)
    else (true, setFeature db fid (fun g => { g with status := .PASSING }))

/-- Modelled from the spec: `block_feature(id, reason, preserve_branch)` —
any non-terminal status goes to BLOCKED, the reason is recorded into
`last_error`, the preservation flag is set when requested; returns true. -/
def block_feature (db : Database) (fid : Nat) (reason : String)
    (preserve : Bool) : Bool × Database :=
  match get_feature db fid with
  | none => (false, db)
  | some f =>
    if f.status = .PASSING then (false, db)
    else
      (true, setFeature db fid (fun g =>
        { g with status := .BLOCKED, last_error := some reason,
                 preserve_branch := g.preserve_branch || preserve }))

/-- Fuel-bounded reachability along dependency edges through non-PASSING
features: `reachesWithin db fuel src dst` holds when a nonempty dependency
path of length at most `fuel` leads from `src` to `dst`. -/
def reachesWithin (db : Database) : Nat → Nat → Nat → Bool
  | 0, _, _ => false
  | fuel + 1, src, dst =>
    match get_feature db src with
    | none => false
    | some f =>
      if f.status = .PASSING then false
      else f.depends_on.any (fun d => d == dst || reachesWithin db fuel d dst)

/-- A feature sits on an unresolvable dependency cycle. -/
def onCycle (db : Database) (fid : Nat) : Bool :=
  reachesWithin db (db.features.length + 1) fid fid

/-- Modelled from the spec: `block_unresolvable_dependencies()` — scans the
dependency graph of non-terminal features and blocks only those whose
dependency chain cannot resolve; the repository test notes the health check
`should only block cycles now`, so the unresolvable set is the features on a
dependency cycle. Returns the count blocked. -/
def block_unresolvable_dependencies (db : Database) : Nat × Database :=
  ((db.features.filter (fun f => !(f.status == .PASSING) && onCycle db f.id)).length,
   { db with features := db.features.map (fun f =>
      if !(f.status == .PASSING) && onCycle db f.id then
        { f with status := .BLOCKED,
                 last_error := some "Blocked: unresolvable dependency cycle" }
      else f) })

/-- The open-REGRESSION rows referencing a given feature id. -/
def openRegressions (db : Database) (rid : Nat) : List Feature :=
  db.features.filter (fun f =>
    f.category == "REGRESSION" && f.regression_of_id == some rid
      && !(f.status == .PASSING))

/-- First open REGRESSION row referencing the id, if any. -/
def find_open_regression (db : Database) (rid : Nat) : Option Feature :=
  db.features.find? (fun f =>
    f.category == "REGRESSION" && f.regression_of_id == some rid
      && !(f.status == .PASSING))

/-- Modelled from the spec: `create_regression_issue(regression_of_id,
summary, details, artifact_path)` — if an open REGRESSION feature already
references the id, update its `last_error`/`last_artifact_path` in place and
report created=false; otherwise create a new PENDING REGRESSION-category
feature linking back, seeded with `last_error = summary`, and report
created=true. Both paths return the resolved feature id. -/
def create_regression_issue (db : Database) (regression_of_id : Nat)
    (summary details : String) (artifact_path : Option String) :
    (Bool × Nat) × Database :=
  match find_open_regression db regression_of_id with
  | some f =>
    ((false, f.id),
     setFeature db f.id (fun g =>
       { g with last_error := some summary, last_artifact_path := artifact_path }))
  | none =>
    ((true, db.nextId),
     { features := db.features ++
        [{ id := db.nextId, name := summary, description := details,
           category := "REGRESSION", priority := 0, status := .PENDING,
           assigned_agent_id := none, depends_on := [], attempts := 0,
           last_error := some summary, last_artifact_path := artifact_path,
           regression_of_id := some regression_of_id, preserve_branch := false }],
       nextId := db.nextId + 1 })

end TaskStore

namespace TaskStore

theorem get_feature_id (db : Database) (d : Nat) (f : Feature)
    (h : get_feature db d = some f) : f.id = d := by
  have := List.find?_some h
  simpa using this

theorem get_feature_setFeature (db : Database) (fid d : Nat)
    (u : Feature → Feature) (hid : ∀ f, (u f).id = f.id) :
    get_feature (setFeature db fid u) d
      = (get_feature db d).map (fun f => if f.id == fid then u f else f) := by
  unfold get_feature setFeature
  simp only
  rw [List.find?_map]
  have hp : ((fun f => f.id == d) ∘ fun f => if f.id == fid then u f else f)
      = (fun f : Feature => f.id == d) := by
    funext f
    simp only [Function.comp_apply]
    by_cases hf : (f.id == fid) = true
    · rw [if_pos hf, hid]
    · rw [if_neg hf]
  rw [hp]

theorem get_feature_setFeature_self (db : Database) (fid : Nat)
    (u : Feature → Feature) (hid : ∀ f, (u f).id = f.id) :
    get_feature (setFeature db fid u) fid = (get_feature db fid).map u := by
  rw [get_feature_setFeature db fid fid u hid]
  cases hget : get_feature db fid with
  | none => rfl
  | some f =>
    have : f.id = fid := get_feature_id db fid f hget
    simp [this]

theorem get_feature_setFeature_ne (db : Database) (fid d : Nat)
    (u : Feature → Feature) (hid : ∀ f, (u f).id = f.id) (hne : d ≠ fid) :
    get_feature (setFeature db fid u) d = get_feature db d := by
  rw [get_feature_setFeature db fid d u hid]
  cases hget : get_feature db d with
  | none => rfl
  | some f =>
    have hf : f.id = d := get_feature_id db d f hget
    have hprop : f.id ≠ fid := by rw [hf]; exact hne
    simp [hprop]

theorem find?_id_of_mem (l : List Feature) (f : Feature)
    (h : (l.map Feature.id).Nodup) (hmem : f ∈ l) :
    l.find? (fun g => g.id == f.id) = some f := by
  induction l with
  | nil => cases hmem
  | cons x t ih =>
    simp only [List.map_cons, List.nodup_cons] at h
    rcases List.mem_cons.mp hmem with rfl | hmem2
    · simp [List.find?_cons]
    · rw [List.find?_cons]
      have hx : (x.id == f.id) = false := by
        refine beq_eq_false_iff_ne.mpr ?_
        intro he
        exact h.1 (he ▸ List.mem_map_of_mem Feature.id hmem2)
      rw [hx]
      exact ih h.2 hmem2

theorem get_feature_of_mem (db : Database) (f : Feature)
    (hnd : (db.features.map Feature.id).Nodup) (hmem : f ∈ db.features) :
    get_feature db f.id = some f :=
  find?_id_of_mem db.features f hnd hmem

/-- C8: starting from a feature that is IN_PROGRESS, `mark_feature_passing`
returns true on the first call, false on the second call on the same id
(already PASSING, a no-op), and the status after both calls is PASSING. -/
theorem C8_mark_passing_idempotent (db : Database) (fid : Nat) (f : Feature)
    (hget : get_feature db fid = some f) (hst : f.status = .IN_PROGRESS) :
    (mark_feature_passing db fid).1 = true
    ∧ (mark_feature_passing (mark_feature_passing db fid).2 fid).1 = false
    ∧ (mark_feature_passing (mark_feature_passing db fid).2 fid).2
        = (mark_feature_passing db fid).2
    ∧ (∃ g, get_feature (mark_feature_passing (mark_feature_passing db fid).2 fid).2 fid
        = some g ∧ g.status = .PASSING) := by
  have h1 : mark_feature_passing db fid
      = (true, setFeature db fid (fun g => { g with status := .PASSING })) := by
    unfold mark_feature_passing
    rw [hget]
    simp [hst]
  have hget1 : get_feature (setFeature db fid
        (fun g => { g with status := .PASSING })) fid
      = some { f with status := .PASSING } := by
    rw [get_feature_setFeature_self db fid
      (fun g => { g with status := .PASSING }) (fun g => rfl), hget]
    rfl
  have h2 : mark_feature_passing (mark_feature_passing db fid).2 fid
      = (false, (mark_feature_passing db fid).2) := by
    rw [h1]
    unfold mark_feature_passing
    rw [hget1]
    simp
  refine ⟨by rw [h1], by rw [h2], by rw [h2], ?_⟩
  rw [h2]
  simp only
  rw [h1]
  exact ⟨{ f with status := .PASSING }, hget1, rfl⟩

/-- Shared concrete feature: id 0, IN_PROGRESS. -/
def sampleInProgressFeature : Feature :=
  { id := 0, name := "Feature", description := "test", category := "test",
    priority := 0, status := .IN_PROGRESS, assigned_agent_id := some "agent-0",
    depends_on := [], attempts := 0, last_error := none,
    last_artifact_path := none, regression_of_id := none,
    preserve_branch := false }

/-- Shared concrete store: one feature, id 0, IN_PROGRESS. -/
def sampleInProgressDb : Database :=
  { features := [sampleInProgressFeature], nextId := 1 }

/-- C8 witness: concrete instantiation of the idempotence theorem. -/
theorem C8_witness :
    (mark_feature_passing sampleInProgressDb 0).1 = true
    ∧ (mark_feature_passing (mark_feature_passing sampleInProgressDb 0).2 0).1 = false
    ∧ (mark_feature_passing (mark_feature_passing sampleInProgressDb 0).2 0).2
        = (mark_feature_passing sampleInProgressDb 0).2
    ∧ (∃ g, get_feature
        (mark_feature_passing (mark_feature_passing sampleInProgressDb 0).2 0).2 0
        = some g ∧ g.status = .PASSING) :=
  C8_mark_passing_idempotent sampleInProgressDb 0 sampleInProgressFeature
    (by decide) (by decide)

end TaskStore

namespace TaskStore

/-- The predicate defining an open REGRESSION row for a given id. -/
def openRegPred (r : Nat) (f : Feature) : Bool :=
  f.category == "REGRESSION" && f.regression_of_id == some r
    && !(f.status == .PASSING)

theorem openRegressions_eq_filter (db : Database) (r : Nat) :
    openRegressions db r = db.features.filter (openRegPred r) := rfl

theorem find_open_regression_eq (db : Database) (r : Nat) :
    find_open_regression db r = db.features.find? (openRegPred r) := rfl

theorem length_openRegressions_setFeature (db : Database) (fid r : Nat)
    (u : Feature → Feature) (hpres : ∀ f, openRegPred r (u f) = openRegPred r f) :
    (openRegressions (setFeature db fid u) r).length
      = (openRegressions db r).length := by
  show (List.filter (openRegPred r) (db.features.map
    (fun f => if f.id == fid then u f else f))).length
    = (List.filter (openRegPred r) db.features).length
  rw [List.filter_map]
  rw [List.length_map]
  congr 1
  refine List.filter_congr ?_
  intro f _
  simp only [Function.comp_apply]
  by_cases hf : (f.id == fid) = true
  · rw [if_pos hf, hpres]
  · rw [if_neg hf]

/-- C7: with no open REGRESSION row for `F` yet, calling
`create_regression_issue` twice with `regression_of_id = F` yields
created=true then created=false with the same feature id, the second call
overwrites the stored `last_error`/`last_artifact_path` with its summary and
artifact path, and afterwards at most one open REGRESSION row exists per
referenced id. -/
theorem C7_regression_issue_dedupe (db : Database) (F : Nat)
    (s1 d1 s2 d2 : String) (ap1 ap2 : Option String) (hwf : db.WF)
    (hnone : find_open_regression db F = none)
    (hinv : ∀ r, (openRegressions db r).length ≤ 1) :
    (create_regression_issue db F s1 d1 ap1).1 = (true, db.nextId)
    ∧ (create_regression_issue
        (create_regression_issue db F s1 d1 ap1).2 F s2 d2 ap2).1
        = (false, db.nextId)
    ∧ (∃ g, get_feature (create_regression_issue
          (create_regression_issue db F s1 d1 ap1).2 F s2 d2 ap2).2 db.nextId
        = some g ∧ g.last_error = some s2 ∧ g.last_artifact_path = ap2)
    ∧ (∀ r, (openRegressions (create_regression_issue
          (create_regression_issue db F s1 d1 ap1).2 F s2 d2 ap2).2 r).length ≤ 1) := by
  set newF : Feature :=
    { id := db.nextId, name := s1, description := d1, category := "REGRESSION",
      priority := 0, status := .PENDING, assigned_agent_id := none,
      depends_on := [], attempts := 0, last_error := some s1,
      last_artifact_path := ap1, regression_of_id := some F,
      preserve_branch := false } with hnewF
  have h1 : create_regression_issue db F s1 d1 ap1
      = ((true, db.nextId),
         { features := db.features ++ [newF], nextId := db.nextId + 1 }) := by
    unfold create_regression_issue
    rw [hnone]
  have hpred : openRegPred F newF = true := by
    simp [openRegPred, hnewF]
  have hfindold : db.features.find? (openRegPred F) = none := hnone
  have h2find : find_open_regression
      { features := db.features ++ [newF], nextId := db.nextId + 1 } F
      = some newF := by
    rw [find_open_regression_eq]
    simp only
    rw [List.find?_append, hfindold]
    simp [List.find?_cons, hpred]
  have h2 : create_regression_issue
      { features := db.features ++ [newF], nextId := db.nextId + 1 } F s2 d2 ap2
      = ((false, db.nextId),
         setFeature { features := db.features ++ [newF], nextId := db.nextId + 1 }
           db.nextId (fun g =>
             { g with last_error := some s2, last_artifact_path := ap2 })) := by
    unfold create_regression_issue
    rw [h2find]
  have hgetnew : get_feature
      { features := db.features ++ [newF], nextId := db.nextId + 1 } db.nextId
      = some newF := by
    unfold get_feature
    simp only
    rw [List.find?_append]
    have hold : db.features.find? (fun f => f.id == db.nextId) = none := by
      refine List.find?_eq_none.mpr ?_
      intro f hf
      have := hwf.2 f hf
      simp only [beq_iff_eq]
      omega
    rw [hold]
    simp [List.find?_cons, hnewF]
  refine ⟨by rw [h1], by rw [h1]; exact congrArg Prod.fst h2, ?_, ?_⟩
  · rw [h1]
    simp only
    rw [h2]
    simp only
    rw [get_feature_setFeature_self
      { features := db.features ++ [newF], nextId := db.nextId + 1 } db.nextId
      (fun g => { g with last_error := some s2, last_artifact_path := ap2 })
      (fun g => rfl), hgetnew]
    exact ⟨_, rfl, rfl, rfl⟩
  · intro r
    rw [h1]
    simp only
    rw [h2]
    simp only
    rw [length_openRegressions_setFeature
      { features := db.features ++ [newF], nextId := db.nextId + 1 } db.nextId r
      (fun g => { g with last_error := some s2, last_artifact_path := ap2 })
      (fun f => rfl)]
    show (List.filter (openRegPred r) (db.features ++ [newF])).length ≤ 1
    rw [List.filter_append]
    by_cases hr : r = F
    · subst hr
      have : db.features.filter (openRegPred r) = [] := by
        refine List.filter_eq_nil_iff.mpr ?_
        intro f hf
        have := List.find?_eq_none.mp hfindold f hf
        simpa using this
      rw [this]
      simp [List.filter_cons, hpred]
    · have hnf : openRegPred r newF = false := by
        simp only [openRegPred, hnewF]
        simp [Ne.symm hr]
      rw [List.length_append]
      have h0 : ([newF].filter (openRegPred r)).length = 0 := by
        simp [List.filter_cons, hnf]
      rw [h0]
      simpa using hinv r

end TaskStore

namespace TaskStore

/-- Shared concrete store: empty. -/
def emptyDb : Database := { features := [], nextId := 0 }

/-- C7 witness: concrete instantiation of the dedupe theorem on the empty
store. -/
theorem C7_witness :
    (create_regression_issue emptyDb 0 "Homepage 500" "GET / returns 500" none).1
      = (true, 0) :=
  (C7_regression_issue_dedupe emptyDb 0 "Homepage 500" "GET / returns 500"
    "Homepage still 500" "Repro: curl /" none (some ".autocoder/regressions/x.json")
    ⟨List.nodup_nil, fun f hf => absurd hf (List.not_mem_nil f)⟩ rfl
    (fun r => Nat.zero_le 1)).1

end TaskStore

namespace TaskStore

/-- Concrete store mirroring the blockers-summary test: feature A blocked
with a transient worker error, feature B blocked with an upstream failure,
feature C PENDING and depending on B; no dependency cycle anywhere. -/
def sampleChainDb : Database :=
  { features :=
      [{ id := 0, name := "A", description := "first", category := "core",
         priority := 0, status := .BLOCKED, assigned_agent_id := none,
         depends_on := [], attempts := 0,
         last_error := some "Worker failed to produce/apply a patch.",
         last_artifact_path := none, regression_of_id := none,
         preserve_branch := true },
       { id := 1, name := "B", description := "second", category := "core",
         priority := 0, status := .BLOCKED, assigned_agent_id := none,
         depends_on := [], attempts := 0,
         last_error := some "Blocked: upstream failure",
         last_artifact_path := none, regression_of_id := none,
         preserve_branch := false },
       { id := 2, name := "C", description := "third", category := "core",
         priority := 0, status := .PENDING, assigned_agent_id := none,
         depends_on := [1], attempts := 0, last_error := none,
         last_artifact_path := none, regression_of_id := none,
         preserve_branch := false }],
    nextId := 3 }

/-- C6: `block_unresolvable_dependencies` blocks only features on an
unresolvable dependency cycle — a feature not on a cycle is left unchanged —
and returns the count of features blocked; in particular on the store where
feature C depends on the merely-BLOCKED (retryable) feature B and no cycle
exists, the call blocks 0 features and leaves the store unchanged. -/
theorem C6_block_unresolvable_only_cycles (db : Database) (f : Feature)
    (hmem : f ∈ db.features)
    (hnc : (!(f.status == .PASSING) && onCycle db f.id) = false) :
    f ∈ (block_unresolvable_dependencies db).2.features
    ∧ (block_unresolvable_dependencies db).1
        = (db.features.filter
            (fun g => !(g.status == .PASSING) && onCycle db g.id)).length
    ∧ (block_unresolvable_dependencies sampleChainDb).1 = 0
    ∧ (block_unresolvable_dependencies sampleChainDb).2 = sampleChainDb := by
  refine ⟨?_, rfl, by decide, by decide⟩
  refine List.mem_map.mpr ⟨f, hmem, ?_⟩
  rw [hnc]
  simp

/-- C6 witness: the non-cyclic PENDING feature C of the sample store is left
unchanged by the health check. -/
theorem C6_witness :
    { id := 2, name := "C", description := "third", category := "core",
      priority := 0, status := Status.PENDING, assigned_agent_id := none,
      depends_on := [1], attempts := 0, last_error := none,
      last_artifact_path := none, regression_of_id := none,
      preserve_branch := false : Feature }
      ∈ (block_unresolvable_dependencies sampleChainDb).2.features :=
  (C6_block_unresolvable_only_cycles sampleChainDb
    { id := 2, name := "C", description := "third", category := "core",
      priority := 0, status := Status.PENDING, assigned_agent_id := none,
      depends_on := [1], attempts := 0, last_error := none,
      last_artifact_path := none, regression_of_id := none,
      preserve_branch := false }
    (by decide) (by decide)).1

end TaskStore

namespace TaskStore

theorem pickBest_acc_some : ∀ (l : List Feature) (b : Feature),
    ∃ f, pickBest (some b) l = some f := by
  intro l
  induction l with
  | nil => intro b; exact ⟨b, rfl⟩
  | cons x t ih =>
    intro b
    exact ih (if x.priority > b.priority then x else b)

theorem pickBest_none_eq_nil (l : List Feature)
    (h : pickBest none l = none) : l = [] := by
  cases l with
  | nil => rfl
  | cons x t =>
    exfalso
    rcases pickBest_acc_some t x with ⟨f, hf⟩
    rw [show pickBest none (x :: t) = pickBest (some x) t from rfl, hf] at h
    cases h

theorem pickBest_mem : ∀ (l : List Feature) (acc : Option Feature) (f : Feature),
    pickBest acc l = some f → acc = some f ∨ f ∈ l := by
  intro l
  induction l with
  | nil =>
    intro acc f h
    exact Or.inl (by cases acc <;> simpa [pickBest] using h)
  | cons x t ih =>
    intro acc f h
    cases acc with
    | none =>
      rcases ih (some x) f h with h1 | h2
      · exact Or.inr (List.mem_cons.mpr (Or.inl (by injection h1 with h1; exact h1.symm)))
      · exact Or.inr (List.mem_cons.mpr (Or.inr h2))
    | some b =>
      rcases ih (some (if x.priority > b.priority then x else b)) f h with h1 | h2
      · by_cases hp : x.priority > b.priority
        · rw [if_pos hp] at h1
          exact Or.inr (List.mem_cons.mpr (Or.inl (by injection h1 with h1; exact h1.symm)))
        · rw [if_neg hp] at h1
          exact Or.inl h1
      · exact Or.inr (List.mem_cons.mpr (Or.inr h2))

theorem claim_next_none (db : Database) (a : String)
    (h : db.features.filter (fun f => eligible db f) = []) :
    claim_next_pending_feature db a = (none, db) := by
  unfold claim_next_pending_feature
  rw [h]
  rfl

theorem claim_next_some (db : Database) (a : String) (f : Feature)
    (hpick : pickBest none (db.features.filter (fun g => eligible db g)) = some f) :
    claim_next_pending_feature db a
      = (some (claimUpd a f), setFeature db f.id (claimUpd a)) := by
  unfold claim_next_pending_feature
  rw [hpick]

theorem pick_eligible (db : Database) (f : Feature)
    (hpick : pickBest none (db.features.filter (fun g => eligible db g)) = some f) :
    f ∈ db.features ∧ eligible db f = true := by
  rcases pickBest_mem _ none f hpick with h1 | h2
  · cases h1
  · exact ⟨(List.mem_filter.mp h2).1, (List.mem_filter.mp h2).2⟩

end TaskStore

namespace TaskStore

theorem WF_setFeature (db : Database) (fid : Nat) (u : Feature → Feature)
    (hid : ∀ f, (u f).id = f.id) (hwf : db.WF) : (setFeature db fid u).WF := by
  have hids : (setFeature db fid u).features.map Feature.id
      = db.features.map Feature.id := by
    show (db.features.map (fun f => if f.id == fid then u f else f)).map Feature.id
      = db.features.map Feature.id
    rw [List.map_map]
    refine List.map_congr_left ?_
    intro x _
    simp only [Function.comp_apply]
    by_cases hx : (x.id == fid) = true
    · rw [if_pos hx, hid]
    · rw [if_neg hx]
  refine ⟨hids ▸ hwf.1, ?_⟩
  intro f hf
  rcases List.mem_map.mp hf with ⟨x, hx, rfl⟩
  have hlt := hwf.2 x hx
  by_cases hcase : (x.id == fid) = true
  · rw [if_pos hcase, hid]; exact hlt
  · rw [if_neg hcase]; exact hlt

theorem depsPassing_setClaim (db : Database) (fid : Nat) (a : String)
    (x : Feature) (hold : ∀ f, get_feature db fid = some f → f.status ≠ .PASSING) :
    depsPassing (setFeature db fid (claimUpd a)) x = depsPassing db x := by
  unfold depsPassing
  congr 1
  funext d
  rw [get_feature_setFeature db fid d (claimUpd a) (fun g => rfl)]
  cases hget : get_feature db d with
  | none => rfl
  | some gf =>
    simp only [Option.map_some']
    by_cases hd : (gf.id == fid) = true
    · rw [if_pos hd]
      have hgid : gf.id = d := get_feature_id db d gf hget
      have hdfid : d = fid := by rw [← hgid]; exact beq_iff_eq.mp hd
      have hnp : gf.status ≠ .PASSING := hold gf (by rw [← hdfid]; exact hget)
      show ((claimUpd a gf).status == Status.PASSING) = (gf.status == Status.PASSING)
      have h1 : ((claimUpd a gf).status == Status.PASSING) = false := by
        simp [claimUpd]
      have h2 : (gf.status == Status.PASSING) = false := by
        simp [hnp]
      rw [h1, h2]
    · rw [if_neg hd]

theorem eligible_setClaim (db : Database) (f0 : Feature) (a : String) (x : Feature)
    (hgf : get_feature db f0.id = some f0) (hpend : f0.status = .PENDING) :
    eligible (setFeature db f0.id (claimUpd a))
        (if x.id == f0.id then claimUpd a x else x)
      = (!(x.id == f0.id) && eligible db x) := by
  have hold : ∀ f, get_feature db f0.id = some f → f.status ≠ .PASSING := by
    intro f hf
    rw [hgf] at hf
    injection hf with hf
    rw [← hf, hpend]
    intro h
    cases h
  by_cases hx : (x.id == f0.id) = true
  · rw [if_pos hx, hx]
    have : eligible (setFeature db f0.id (claimUpd a)) (claimUpd a x) = false := by
      unfold eligible
      simp [claimUpd]
    rw [this]
    rfl
  · have hfalse : (x.id == f0.id) = false := by simpa using hx
    rw [if_neg hx, hfalse]
    unfold eligible
    rw [depsPassing_setClaim db f0.id a x hold]
    simp

theorem eligibleIds_setClaim (db : Database) (f0 : Feature) (a : String)
    (hgf : get_feature db f0.id = some f0) (hpend : f0.status = .PENDING) :
    eligibleIds (setFeature db f0.id (claimUpd a))
      = (eligibleIds db).filter (fun i => !(i == f0.id)) := by
  unfold eligibleIds
  show ((db.features.map (fun x => if x.id == f0.id then claimUpd a x else x)).filter
      (fun f => eligible (setFeature db f0.id (claimUpd a)) f)).map Feature.id
    = ((db.features.filter (fun f => eligible db f)).map Feature.id).filter
      (fun i => !(i == f0.id))
  rw [List.filter_map, List.map_map, List.filter_map]
  have hidc : (Feature.id ∘ fun x => if x.id == f0.id then claimUpd a x else x)
      = Feature.id := by
    funext x
    simp only [Function.comp_apply]
    by_cases hx : (x.id == f0.id) = true
    · rw [if_pos hx]; rfl
    · rw [if_neg hx]
  rw [hidc]
  congr 1
  rw [List.filter_filter]
  refine List.filter_congr ?_
  intro x _
  simp only [Function.comp_apply]
  rw [eligible_setClaim db f0 a x hgf hpend]

theorem length_filter_ne_of_nodup (l : List Nat) (a : Nat)
    (hnd : l.Nodup) (ha : a ∈ l) :
    (l.filter (fun i => !(i == a))).length = l.length - 1 := by
  induction l with
  | nil => cases ha
  | cons x t ih =>
    rcases List.mem_cons.mp ha with rfl | hat
    · have hnotin : a ∉ t := (List.nodup_cons.mp hnd).1
      have hkeep : t.filter (fun i => !(i == a)) = t := by
        refine List.filter_eq_self.mpr ?_
        intro b hb
        simp only [Bool.not_eq_true']
        exact beq_eq_false_iff_ne.mpr (fun h => hnotin (h ▸ hb))
      have hstep : (a :: t).filter (fun i => !(i == a))
          = t.filter (fun i => !(i == a)) := by
        rw [List.filter_cons]
        simp
      rw [hstep, hkeep]
      simp
    · have hx : x ≠ a := fun h => (List.nodup_cons.mp hnd).1 (h ▸ hat)
      have hstep : (x :: t).filter (fun i => !(i == a))
          = x :: t.filter (fun i => !(i == a)) := by
        rw [List.filter_cons]
        simp [hx]
      rw [hstep]
      simp only [List.length_cons]
      rw [ih (List.nodup_cons.mp hnd).2 hat]
      have hpos : 1 ≤ t.length := List.length_pos.mpr (List.ne_nil_of_mem hat)
      omega

theorem eligibleIds_nodup (db : Database) (hwf : db.WF) : (eligibleIds db).Nodup := by
  refine hwf.1.sublist ?_
  exact (List.filter_sublist db.features).map Feature.id

end TaskStore

namespace TaskStore

theorem eligible_pending (db : Database) (f : Feature)
    (h : eligible db f = true) : f.status = .PENDING := by
  unfold eligible at h
  rw [Bool.and_eq_true] at h
  exact beq_iff_eq.mp h.1

theorem claim_next_none_of_nil (db : Database) (a : String)
    (hpick : pickBest none (db.features.filter (fun g => eligible db g)) = none) :
    claim_next_pending_feature db a = (none, db) :=
  claim_next_none db a (pickBest_none_eq_nil _ hpick)

theorem claimAll_cons_none (db : Database) (a : String) (t : List String)
    (h : db.features.filter (fun g => eligible db g) = []) :
    claimAll db (a :: t) = claimAll db t := by
  show (match claim_next_pending_feature db a with
    | (none, db1) => claimAll db1 t
    | (some f, db1) =>
      let r := claimAll db1 t
      (f :: r.1, r.2)) = claimAll db t
  rw [claim_next_none db a h]

theorem claimAll_cons_some (db : Database) (a : String) (t : List String)
    (f0 : Feature)
    (hpick : pickBest none (db.features.filter (fun g => eligible db g)) = some f0) :
    claimAll db (a :: t)
      = (claimUpd a f0 :: (claimAll (setFeature db f0.id (claimUpd a)) t).1,
         (claimAll (setFeature db f0.id (claimUpd a)) t).2) := by
  show (match claim_next_pending_feature db a with
    | (none, db1) => claimAll db1 t
    | (some f, db1) =>
      let r := claimAll db1 t
      (f :: r.1, r.2))
    = (claimUpd a f0 :: (claimAll (setFeature db f0.id (claimUpd a)) t).1,
       (claimAll (setFeature db f0.id (claimUpd a)) t).2)
  rw [claim_next_some db a f0 hpick]

theorem claim_WF (db : Database) (a : String) (hwf : db.WF) :
    (claim_next_pending_feature db a).2.WF := by
  cases hpick : pickBest none (db.features.filter (fun g => eligible db g)) with
  | none => rw [claim_next_none_of_nil db a hpick]; exact hwf
  | some f0 =>
    rw [claim_next_some db a f0 hpick]
    exact WF_setFeature db f0.id (claimUpd a) (fun g => rfl) hwf

theorem claim_preserves_nonpending (db : Database) (a : String) (i : Nat)
    (h : Feature) (hwf : db.WF) (hget : get_feature db i = some h)
    (hst : h.status ≠ .PENDING) :
    get_feature (claim_next_pending_feature db a).2 i = some h := by
  cases hpick : pickBest none (db.features.filter (fun g => eligible db g)) with
  | none => rw [claim_next_none_of_nil db a hpick]; exact hget
  | some f0 =>
    rw [claim_next_some db a f0 hpick]
    simp only
    have hmem := (pick_eligible db f0 hpick).1
    have helig := (pick_eligible db f0 hpick).2
    have hpend : f0.status = .PENDING := eligible_pending db f0 helig
    have hne : i ≠ f0.id := by
      intro he
      have hgf0 : get_feature db f0.id = some f0 :=
        get_feature_of_mem db f0 hwf.1 hmem
      rw [he, hgf0] at hget
      injection hget with hh
      exact hst (by rw [← hh, hpend])
    rw [get_feature_setFeature_ne db f0.id i (claimUpd a) (fun g => rfl) hne]
    exact hget

theorem claimAll_preserves (agents : List String) : ∀ (db : Database), db.WF →
    ∀ (i : Nat) (h : Feature), get_feature db i = some h → h.status ≠ .PENDING →
      get_feature (claimAll db agents).2 i = some h := by
  induction agents with
  | nil => intro db _ i h hget _; exact hget
  | cons a t ih =>
    intro db hwf i h hget hst
    cases hpick : pickBest none (db.features.filter (fun g => eligible db g)) with
    | none =>
      rw [claimAll_cons_none db a t (pickBest_none_eq_nil _ hpick)]
      exact ih db hwf i h hget hst
    | some f0 =>
      rw [claimAll_cons_some db a t f0 hpick]
      simp only
      have hwf1 : (setFeature db f0.id (claimUpd a)).WF :=
        WF_setFeature db f0.id (claimUpd a) (fun g => rfl) hwf
      have hget1 : get_feature (setFeature db f0.id (claimUpd a)) i = some h := by
        have := claim_preserves_nonpending db a i h hwf hget hst
        rw [claim_next_some db a f0 hpick] at this
        exact this
      exact ih _ hwf1 i h hget1 hst

end TaskStore

namespace TaskStore

theorem claimAll_master (agents : List String) : ∀ (db : Database), db.WF →
    ((claimAll db agents).1.map Feature.id).Nodup
    ∧ (claimAll db agents).1.length = min agents.length (eligibleIds db).length
    ∧ (claimAll db agents).2.WF
    ∧ (∀ f ∈ (claimAll db agents).1, f.id ∈ eligibleIds db)
    ∧ (∀ f ∈ (claimAll db agents).1, ∃ a ∈ agents,
        get_feature (claimAll db agents).2 f.id = some f
        ∧ f.status = .IN_PROGRESS ∧ f.assigned_agent_id = some a) := by
  induction agents with
  | nil =>
    intro db hwf
    refine ⟨List.nodup_nil, by simp [show claimAll db [] = ([], db) from rfl], hwf, ?_, ?_⟩
    · intro f hf
      exact absurd hf (List.not_mem_nil f)
    · intro f hf
      exact absurd hf (List.not_mem_nil f)
  | cons a t ih =>
    intro db hwf
    cases hpick : pickBest none (db.features.filter (fun g => eligible db g)) with
    | none =>
      have hnil : db.features.filter (fun g => eligible db g) = [] :=
        pickBest_none_eq_nil _ hpick
      have hM : eligibleIds db = [] := by
        unfold eligibleIds
        rw [hnil]
        rfl
      rw [claimAll_cons_none db a t hnil]
      rcases ih db hwf with ⟨h1, h2, h3, h4, h5⟩
      refine ⟨h1, ?_, h3, h4, ?_⟩
      · rw [h2, hM]
        simp
      · intro f hf
        rcases h5 f hf with ⟨a2, ha2, rest⟩
        exact ⟨a2, List.mem_cons_of_mem a ha2, rest⟩
    | some f0 =>
      have hmem := (pick_eligible db f0 hpick).1
      have helig := (pick_eligible db f0 hpick).2
      have hpend : f0.status = .PENDING := eligible_pending db f0 helig
      have hgf0 : get_feature db f0.id = some f0 :=
        get_feature_of_mem db f0 hwf.1 hmem
      have hwf1 : (setFeature db f0.id (claimUpd a)).WF :=
        WF_setFeature db f0.id (claimUpd a) (fun g => rfl) hwf
      have hids1 : eligibleIds (setFeature db f0.id (claimUpd a))
          = (eligibleIds db).filter (fun i => !(i == f0.id)) :=
        eligibleIds_setClaim db f0 a hgf0 hpend
      have hf0in : f0.id ∈ eligibleIds db := by
        unfold eligibleIds
        exact List.mem_map_of_mem Feature.id (List.mem_filter.mpr ⟨hmem, helig⟩)
      have hlen1 : (eligibleIds (setFeature db f0.id (claimUpd a))).length
          = (eligibleIds db).length - 1 := by
        rw [hids1]
        exact length_filter_ne_of_nodup _ _ (eligibleIds_nodup db hwf) hf0in
      have hg1 : get_feature (setFeature db f0.id (claimUpd a)) f0.id
          = some (claimUpd a f0) := by
        rw [get_feature_setFeature_self db f0.id (claimUpd a) (fun g => rfl), hgf0]
        rfl
      rw [claimAll_cons_some db a t f0 hpick]
      rcases ih (setFeature db f0.id (claimUpd a)) hwf1 with ⟨h1, h2, h3, h4, h5⟩
      refine ⟨?_, ?_, h3, ?_, ?_⟩
      · simp only [List.map_cons]
        refine List.nodup_cons.mpr ⟨?_, h1⟩
        intro hin
        rcases List.mem_map.mp hin with ⟨g, hg, hgid⟩
        have hsub := h4 g hg
        rw [hids1] at hsub
        have hpred := (List.mem_filter.mp hsub).2
        rw [hgid] at hpred
        simp [claimUpd] at hpred
      · simp only [List.length_cons]
        rw [h2, hlen1]
        have hMpos : 1 ≤ (eligibleIds db).length :=
          List.length_pos.mpr (List.ne_nil_of_mem hf0in)
        omega
      · intro f hf
        rcases List.mem_cons.mp hf with rfl | hft
        · show (claimUpd a f0).id ∈ eligibleIds db
          exact hf0in
        · have hsub := h4 f hft
          rw [hids1] at hsub
          exact (List.mem_filter.mp hsub).1
      · intro f hf
        rcases List.mem_cons.mp hf with rfl | hft
        · refine ⟨a, List.mem_cons_self a t, ?_, rfl, rfl⟩
          show get_feature (claimAll (setFeature db f0.id (claimUpd a)) t).2
            (claimUpd a f0).id = some (claimUpd a f0)
          refine claimAll_preserves t (setFeature db f0.id (claimUpd a)) hwf1
            f0.id (claimUpd a f0) hg1 ?_
          intro hcon
          exact Status.noConfusion hcon
        · rcases h5 f hft with ⟨a2, ha2, rest⟩
          exact ⟨a2, List.mem_cons_of_mem a ha2, rest⟩

end TaskStore

namespace TaskStore

/-- C1: each claim is the atomic selection-and-transition unit the spec
mandates, so a concurrent execution of N claimers from separate processes is
an interleaving — a sequential composition of the atomic claims in some
order. Over any well-formed store, the claimed features carry pairwise
distinct ids, exactly min(N, M) features are claimed where M is the number of
eligible PENDING features, and afterwards every claimed feature holds the
non-empty agent id of its claimer. -/
theorem C1_concurrent_claims_unique (db : Database) (agents : List String)
    (hwf : db.WF) (hne : ∀ a ∈ agents, a ≠ "") :
    ((claimAll db agents).1.map Feature.id).Nodup
    ∧ (claimAll db agents).1.length = min agents.length (eligibleIds db).length
    ∧ (∀ f ∈ (claimAll db agents).1, ∃ g a,
        get_feature (claimAll db agents).2 f.id = some g
        ∧ g.assigned_agent_id = some a ∧ a ≠ "") := by
  rcases claimAll_master agents db hwf with ⟨h1, h2, _, _, h5⟩
  refine ⟨h1, h2, ?_⟩
  intro f hf
  rcases h5 f hf with ⟨a, ha, hget, _, hass⟩
  exact ⟨f, a, hget, hass ▸ rfl, hne a ha⟩

/-- Shared concrete feature: id 0, PENDING, no dependencies. -/
def samplePendingA : Feature :=
  { id := 0, name := "Feature 0", description := "test", category := "test",
    priority := 0, status := .PENDING, assigned_agent_id := none,
    depends_on := [], attempts := 0, last_error := none,
    last_artifact_path := none, regression_of_id := none,
    preserve_branch := false }

/-- Shared concrete feature: id 1, PENDING, no dependencies. -/
def samplePendingB : Feature :=
  { id := 1, name := "Feature 1", description := "test", category := "test",
    priority := 0, status := .PENDING, assigned_agent_id := none,
    depends_on := [], attempts := 0, last_error := none,
    last_artifact_path := none, regression_of_id := none,
    preserve_branch := false }

/-- Shared concrete store: two eligible PENDING features. -/
def sampleClaimDb : Database :=
  { features := [samplePendingA, samplePendingB], nextId := 2 }

/-- C1 witness: three claimers over two eligible features claim exactly
min(3, 2) distinct features. -/
theorem C1_witness :
    ((claimAll sampleClaimDb ["agent-0", "agent-1", "agent-2"]).1.map
      Feature.id).Nodup
    ∧ (claimAll sampleClaimDb ["agent-0", "agent-1", "agent-2"]).1.length
        = min 3 (eligibleIds sampleClaimDb).length :=
  have h := C1_concurrent_claims_unique sampleClaimDb
    ["agent-0", "agent-1", "agent-2"] ⟨by decide, by decide⟩ (by decide)
  ⟨h.1, h.2.1⟩

end TaskStore

namespace ProcessLock

/-- Modelled from the spec: the live OS process table as seen by psutil —
pid to process start time. -/
def startTimeOf (procs : List (Nat × Nat)) (pid : Nat) : Option Nat :=
  (procs.find? (fun e => e.1 == pid)).map (fun e => e.2)

/-- Modelled from the spec: the lock file of `AgentProcessManager`
(`autocoder/server/services/process_manager.py` is not in the repository
snapshot). The file holds `pid:process_start_time`, represented as the pair;
`none` means no lock file exists. -/
structure LockState where
  lockFile : Option (Nat × Nat)
deriving DecidableEq, Repr

/-- Modelled from the spec: `_check_lock()` — read the recorded pid and start
time and compare against the live process table; the lock is valid (blocking,
returns false as in the tests) only when a process with that pid is alive and
its start time matches; otherwise the stale file is deleted and the lock is
reported available (true). -/
def check_lock (procs : List (Nat × Nat)) (s : LockState) : Bool × LockState :=
  match s.lockFile with
  | none => (true, s)
  | some (pid, st) =>
    match startTimeOf procs pid with
    | some st2 => if st2 == st then (false, s) else (true, { lockFile := none })
    | none => (true, { lockFile := none })

/-- Modelled from the spec: `_create_lock()` — atomic exclusive-create: when
a valid lock exists, fail (false) without touching it; otherwise write
`pid:start_time` of the calling process and succeed (true). -/
def create_lock (procs : List (Nat × Nat)) (selfPid : Nat) (s : LockState) :
    Bool × LockState :=
  let r := check_lock procs s
  if r.1 then
    match startTimeOf procs selfPid with
    | some st => (true, { lockFile := some (selfPid, st) })
    | none => (false, r.2)
  else (false, r.2)

/-- C4: `check_lock` on a lock file holding `pid:start_time` reports the lock
valid (blocking) iff a live process with that pid has exactly that start
time; on a pid-reuse mismatch the lock is stale: reported available and the
file deleted. -/
theorem C4_check_lock_pid_reuse (procs : List (Nat × Nat)) (pid st : Nat)
    (s : LockState) (hfile : s.lockFile = some (pid, st)) :
    ((check_lock procs s).1 = false ↔ startTimeOf procs pid = some st)
    ∧ (∀ st2, startTimeOf procs pid = some st2 → st2 ≠ st →
        (check_lock procs s).1 = true ∧ (check_lock procs s).2.lockFile = none) := by
  have hmain : check_lock procs s
      = match startTimeOf procs pid with
        | some st2 => if st2 == st then (false, s) else (true, { lockFile := none })
        | none => (true, { lockFile := none }) := by
    unfold check_lock
    rw [hfile]
  constructor
  · cases hlive : startTimeOf procs pid with
    | none =>
      rw [hmain, hlive]
      simp
    | some st2 =>
      rw [hmain, hlive]
      by_cases he : st2 = st
      · subst he
        simp
      · have hbf : (st2 == st) = false := beq_eq_false_iff_ne.mpr he
        simp [hbf, he]
  · intro st2 hlive hne
    rw [hmain, hlive]
    have hbf : (st2 == st) = false := beq_eq_false_iff_ne.mpr hne
    simp [hbf]

/-- C4 witness: concrete pid-reuse instantiation — pid 7 alive with start
time 100, lock recorded with start time 50. -/
theorem C4_witness :
    ((check_lock [(7, 100)] { lockFile := some (7, 50) }).1 = false
      ↔ startTimeOf [(7, 100)] 7 = some 50)
    ∧ (∀ st2, startTimeOf [(7, 100)] 7 = some st2 → st2 ≠ 50 →
        (check_lock [(7, 100)] { lockFile := some (7, 50) }).1 = true
        ∧ (check_lock [(7, 100)] { lockFile := some (7, 50) }).2.lockFile = none) :=
  C4_check_lock_pid_reuse [(7, 100)] 7 50 { lockFile := some (7, 50) } rfl

/-- C5: `create_lock` is exclusive-create-or-fail: with no valid lock it
creates the lock for the calling live process and returns true; with a valid
lock present it returns false and leaves the lock unchanged, so two
sequential calls return true then false. -/
theorem C5_create_lock_exclusive (procs : List (Nat × Nat)) (selfPid st : Nat)
    (s : LockState) (hself : startTimeOf procs selfPid = some st)
    (havail : (check_lock procs s).1 = true) :
    (create_lock procs selfPid s).1 = true
    ∧ (create_lock procs selfPid s).2.lockFile = some (selfPid, st)
    ∧ (create_lock procs selfPid (create_lock procs selfPid s).2).1 = false
    ∧ (create_lock procs selfPid (create_lock procs selfPid s).2).2.lockFile
        = some (selfPid, st)
    ∧ (∀ s2 : LockState, (check_lock procs s2).1 = false →
        create_lock procs selfPid s2 = (false, s2)) := by
  have hblock : ∀ s2 : LockState, (check_lock procs s2).1 = false →
      create_lock procs selfPid s2 = (false, s2) := by
    intro s2 hs2
    have hst : (check_lock procs s2).2 = s2 := by
      cases hf : s2.lockFile with
      | none =>
        unfold check_lock
        rw [hf]
      | some e =>
        cases e with
        | mk pid stR =>
          have hm : check_lock procs s2
              = match startTimeOf procs pid with
                | some st2 =>
                  if st2 == stR then (false, s2) else (true, { lockFile := none })
                | none => (true, { lockFile := none }) := by
            unfold check_lock
            rw [hf]
          cases hlive : startTimeOf procs pid with
          | none =>
            rw [hm, hlive] at hs2
            simp at hs2
          | some st2 =>
            by_cases hb : (st2 == stR) = true
            · rw [hm, hlive]
              simp [hb]
            · rw [hm, hlive] at hs2
              simp [hb] at hs2
    unfold create_lock
    simp [hs2, hst]
  have h1 : create_lock procs selfPid s
      = (true, { lockFile := some (selfPid, st) }) := by
    unfold create_lock
    simp [havail, hself]
  have hcheck2 : (check_lock procs { lockFile := some (selfPid, st) }).1 = false := by
    unfold check_lock
    simp only
    rw [hself]
    simp
  have h2 := hblock { lockFile := some (selfPid, st) } hcheck2
  refine ⟨by rw [h1], by rw [h1], ?_, ?_, hblock⟩
  · rw [h1]
    simp only
    rw [h2]
  · rw [h1]
    simp only
    rw [h2]

/-- C5 witness: concrete instantiation — process 7 with start time 100,
starting from no lock file. -/
theorem C5_witness :
    (create_lock [(7, 100)] 7 { lockFile := none }).1 = true
    ∧ (create_lock [(7, 100)] 7 { lockFile := none }).2.lockFile = some (7, 100)
    ∧ (create_lock [(7, 100)] 7
        (create_lock [(7, 100)] 7 { lockFile := none }).2).1 = false
    ∧ (create_lock [(7, 100)] 7
        (create_lock [(7, 100)] 7 { lockFile := none }).2).2.lockFile = some (7, 100)
    ∧ (∀ s2 : LockState, (check_lock [(7, 100)] s2).1 = false →
        create_lock [(7, 100)] 7 s2 = (false, s2)) :=
  C5_create_lock_exclusive [(7, 100)] 7 100 { lockFile := none } rfl rfl

end ProcessLock

namespace QAWorker

open StrOps

/-- Line view of worker output: split on newline characters. -/
def splitLinesAux : List Char → List Char → List (List Char)
  | [], acc => [acc.reverse]
  | c :: t, acc =>
    if c == '\n' then acc.reverse :: splitLinesAux t []
    else splitLinesAux t (c :: acc)

/-- Split a character list into its lines. -/
def splitLines (l : List Char) : List (List Char) := splitLinesAux l []

/-- Rejoin lines with newlines. -/
def joinLines : List (List Char) → List Char
  | [] => []
  | [ln] => ln
  | ln :: t => ln ++ '\n' :: joinLines t

/-- A `diff --git` header line. -/
def isDiffGitLine (ln : List Char) : Bool :=
  isPrefixChars (chars "diff --git") ln

/-- A bare unified-diff `--- ` header line. -/
def isUnifiedHeaderLine (ln : List Char) : Bool :=
  isPrefixChars (chars "--- ") ln

/-- Modelled from the spec: `_strip_fences` of `autocoder/qa_worker.py` (the
module is not in the repository snapshot) — strip markdown code-fence
wrapping: drop every fence line, i.e. every line starting with three
backticks. -/
def strip_fences (text : String) : String :=
  String.mk (joinLines ((splitLines (chars text)).filter
    (fun ln => !(isPrefixChars (chars "```") ln))))

/-- First suffix of the line list whose head satisfies the marker. -/
def suffixFrom (p : List Char → Bool) : List (List Char) → Option (List (List Char))
  | [] => none
  | ln :: t => if p ln then some (ln :: t) else suffixFrom p t

/-- Modelled from the spec: `_trim_to_diff_start` — trim any prose preamble
to the first recognizable diff marker, preferring a `diff --git` line over a
bare `--- a/`/`+++ b/` unified-diff header; unchanged when neither occurs. -/
def trim_to_diff_start (text : String) : String :=
  match suffixFrom isDiffGitLine (splitLines (chars text)) with
  | some tail => String.mk (joinLines tail)
  | none =>
    match suffixFrom isUnifiedHeaderLine (splitLines (chars text)) with
    | some tail => String.mk (joinLines tail)
    | none => text

/-- Modelled from the spec: `_apply_patch(repo, patch)` — reject a
`Begin Patch`/`End Patch` blob synchronously with an error naming the
unsupported apply_patch format; otherwise normalize (strip fences, trim the
preamble) and hand a recognized unified diff to git apply, modelled here as
succeeding exactly when the trimmed text starts at a diff marker. -/
def apply_patch (raw : String) : Bool × String :=
  if containsChars (chars raw) (chars "*** Begin Patch") then
    (false,
     "Unsupported patch: apply_patch format (Begin Patch / End Patch) is not a unified diff")
  else
    let trimmed := trim_to_diff_start (strip_fences raw)
    if isDiffGitLine (chars trimmed) || isUnifiedHeaderLine (chars trimmed) then
      (true, "")
    else (false, "Patch did not look like a unified diff")

theorem suffixFrom_of_any (p : List Char → Bool) (lns : List (List Char))
    (h : lns.any p = true) :
    ∃ ln t, suffixFrom p lns = some (ln :: t) ∧ p ln = true := by
  induction lns with
  | nil => cases h
  | cons x t ih =>
    by_cases hx : p x = true
    · exact ⟨x, t, by simp [suffixFrom, hx], hx⟩
    · have hx2 : p x = false := by simpa using hx
      have h2 : t.any p = true := by
        rw [List.any_cons, hx2] at h
        simpa using h
      rcases ih h2 with ⟨ln, tt, hfind, hp⟩
      exact ⟨ln, tt, by simp [suffixFrom, hx2, hfind], hp⟩

theorem isPrefix_append (p : List Char) : ∀ (l r : List Char),
    isPrefixChars p l = true → isPrefixChars p (l ++ r) = true := by
  induction p with
  | nil => intro l r _; rfl
  | cons c cs ih =>
    intro l r h
    cases l with
    | nil => cases h
    | cons x xs =>
      show (c == x && isPrefixChars cs (xs ++ r)) = true
      have h2 : (c == x && isPrefixChars cs xs) = true := h
      rw [Bool.and_eq_true] at h2
      rw [Bool.and_eq_true]
      exact ⟨h2.1, ih xs r h2.2⟩

theorem isPrefix_joinLines (p ln : List Char) (t : List (List Char))
    (h : isPrefixChars p ln = true) :
    isPrefixChars p (joinLines (ln :: t)) = true := by
  cases t with
  | nil => exact h
  | cons l2 t2 =>
    show isPrefixChars p (ln ++ '\n' :: joinLines (l2 :: t2)) = true
    exact isPrefix_append p ln _ h

theorem trim_finds_diff_git (text : String)
    (h : (splitLines (chars text)).any isDiffGitLine = true) :
    isPrefixChars (chars "diff --git") (chars (trim_to_diff_start text)) = true := by
  rcases suffixFrom_of_any isDiffGitLine _ h with ⟨ln, t, hfind, hp⟩
  unfold trim_to_diff_start
  rw [hfind]
  exact isPrefix_joinLines _ ln t hp

/-- The worker output of the repository test: prose preamble, then a fenced
diff whose body holds both a `diff --git` line and a bare `--- a/` header. -/
def sampleFencedOutput : String :=
  "some preamble\n\n```diff\ndiff --git a/a.txt b/a.txt\n--- a/a.txt\n+++ b/a.txt\n@@\n-one\n+two\n```\n"

/-- Output where a bare `--- ` header comes before the `diff --git` line. -/
def sampleHeaderFirst : String :=
  "--- a/old.txt\n+++ b/old.txt\ndiff --git a/a.txt b/a.txt\n"

/-- The apply_patch-format blob of the repository test. -/
def sampleBeginPatch : String :=
  "*** Begin Patch\n*** Update File: a.txt\n-one\n+two\n*** End Patch\n"

/-- C9: the patch validator strips code fences and trims any prose preamble
so the result starts at the first `diff --git` line whenever one is present —
preferring it over a bare `--- ` header even when the header comes first —
and rejects a `Begin Patch`/`End Patch` blob with failure and an error
message naming the unsupported apply_patch format. -/
theorem C9_patch_validator_normalizes_and_rejects (text : String)
    (h : (splitLines (chars (strip_fences text))).any isDiffGitLine = true) :
    isPrefixChars (chars "diff --git")
        (chars (trim_to_diff_start (strip_fences text))) = true
    ∧ isPrefixChars (chars "diff --git")
        (chars (trim_to_diff_start (strip_fences sampleFencedOutput))) = true
    ∧ isPrefixChars (chars "diff --git")
        (chars (trim_to_diff_start sampleHeaderFirst)) = true
    ∧ (apply_patch sampleBeginPatch).1 = false
    ∧ containsChars (chars (apply_patch sampleBeginPatch).2)
        (chars "apply_patch format") = true := by
  refine ⟨trim_finds_diff_git _ h, by decide, by decide, by decide, by decide⟩

/-- C9 witness: the fenced worker output of the test trims to a result
starting at its `diff --git` line. -/
theorem C9_witness :
    isPrefixChars (chars "diff --git")
      (chars (trim_to_diff_start (strip_fences sampleFencedOutput))) = true :=
  (C9_patch_validator_normalizes_and_rejects sampleFencedOutput (by decide)).1

end QAWorker
